import Mathlib

/-!
Verification development for ptb.py, a reader and transformer of
Penn-Treebank bracketed constituency trees.

The Python source is shallowly embedded: each Python function is
translated into a Lean definition operating on explicit data.  In-place
mutation of the linked tree structure is rendered as returning the
updated tree; the first_child/next_sibling chain of a constituent node
is rendered as its list of children (the list order is the chain
order).  Python exceptions (IndexError, AssertionError, AttributeError,
TypeError) are rendered with Except.
-/

namespace Ptb

/-! ## Generic list facts used by the embedding -/

theorem length_dropWhile_le (p : α → Bool) (l : List α) :
    (l.dropWhile p).length ≤ l.length := by
  induction l with
  | nil => simp [List.dropWhile]
  | cons a l ih =>
    by_cases h : p a
    · simp only [List.dropWhile, h]
      exact Nat.le_succ_of_le ih
    · simp [List.dropWhile, h]

theorem takeWhile_append_all (p : α → Bool) (l r : List α)
    (hl : ∀ a ∈ l, p a = true)
    (hr : ∀ c cs, r = c :: cs → p c = false) :
    (l ++ r).takeWhile p = l := by
  induction l with
  | nil =>
    cases r with
    | nil => simp
    | cons c cs => simp [List.takeWhile, hr c cs rfl]
  | cons a l ih =>
    simp only [List.cons_append, List.takeWhile, hl a (by simp), List.append_eq]
    rw [ih (fun a ha => hl a (by simp [ha]))]

theorem dropWhile_append_all (p : α → Bool) (l r : List α)
    (hl : ∀ a ∈ l, p a = true)
    (hr : ∀ c cs, r = c :: cs → p c = false) :
    (l ++ r).dropWhile p = r := by
  induction l with
  | nil =>
    cases r with
    | nil => simp
    | cons c cs => simp [List.dropWhile, hr c cs rfl]
  | cons a l ih =>
    simp only [List.cons_append, List.dropWhile, hl a (by simp)]
    exact ih (fun a ha => hl a (by simp [ha]))

/-! ## Lexer

Python: tokens are tagged by the sentinels LPAREN_TOKEN, RPAREN_TOKEN,
STRING_TOKEN; a Token additionally carries an optional value and an
optional line number (both default to None). -/

inductive TokenId where
  | lparen
  | rparen
  | string
deriving DecidableEq

structure Token where
  token_id : TokenId
  value : Option String := none
  lineno : Option Nat := none
deriving DecidableEq

/-- Character class of the regex atom [^()\s]+ used by the token
pattern: any character that is neither a parenthesis nor whitespace. -/
def isAtomChar (c : Char) : Bool :=
  !(c = '(' || c = ')' || c.isWhitespace)

/-- One line of input scanned with the token pattern (match a paren, or
a maximal run of non-paren non-whitespace characters; characters that
match nothing, i.e. whitespace, are skipped).  Mirrors the finditer
loop in lex: note that none of the yielded tokens is given a line
number (lex passes lineno to no Token constructor). -/
def lexLine : List Char → List Token
  | [] => []
  | c :: rest =>
    if c = '(' then ⟨TokenId.lparen, none, none⟩ :: lexLine rest
    else if c = ')' then ⟨TokenId.rparen, none, none⟩ :: lexLine rest
    else if isAtomChar c then
      ⟨TokenId.string, some (String.mk (c :: rest.takeWhile isAtomChar)), none⟩ ::
        lexLine (rest.dropWhile isAtomChar)
    else lexLine rest
termination_by l => l.length
decreasing_by
  · simp
  · simp
  · exact Nat.lt_succ_of_le (length_dropWhile_le _ _)
  · simp

/-- Python lex over a list of input lines: each line is scanned in
order and the token streams are concatenated. -/
def lex (lines : List String) : List Token :=
  (lines.map (fun line => lexLine line.toList)).flatten

/-! ## Label grammar (class Symbol) -/

structure Symbol where
  label : String
  tags : List String := []
  coindex : Option String := none
  parindex : Option String := none
  parent : Option String := none
deriving DecidableEq

/-- Character class [^0-9=-] of the label/tag alternatives of
Symbol._pat. -/
def isLabelChar (c : Char) : Bool :=
  !(c.isDigit || c = '=' || c = '-')

/-- Scanning loop of Symbol.__init__ for positions past the start of
the string.  At each position the regex alternatives are tried in
order: the label alternative is anchored at position 0 and can never
match here; a tag is a '-' followed by a maximal nonempty run of
[^0-9=-]; a parent index is '=' followed by a maximal nonempty run of
digits; a coindex is '-' followed by a maximal nonempty run of digits.
When no alternative matches, finditer advances one character. -/
def scanTail (acc : Symbol) : List Char → Symbol
  | [] => acc
  | '-' :: c :: rest =>
    if isLabelChar c then
      scanTail { acc with tags := acc.tags ++ [String.mk ((c :: rest).takeWhile isLabelChar)] }
        ((c :: rest).dropWhile isLabelChar)
    else if c.isDigit then
      scanTail { acc with coindex := some (String.mk ((c :: rest).takeWhile Char.isDigit)) }
        ((c :: rest).dropWhile Char.isDigit)
    else scanTail acc (c :: rest)
  | '=' :: c :: rest =>
    if c.isDigit then
      scanTail { acc with parindex := some (String.mk ((c :: rest).takeWhile Char.isDigit)) }
        ((c :: rest).dropWhile Char.isDigit)
    else scanTail acc (c :: rest)
  | _ :: rest => scanTail acc rest
termination_by l => l.length
decreasing_by
  · exact Nat.lt_succ_of_le (length_dropWhile_le _ _)
  · exact Nat.lt_succ_of_le (length_dropWhile_le _ _)
  · simp
  · exact Nat.lt_succ_of_le (length_dropWhile_le _ _)
  · simp
  · simp

/-- Symbol.__init__: self.label starts out as the whole input string
and is replaced by the label group when that (anchored) alternative
matches, i.e. exactly when the first character is in [^0-9=-]. -/
def mkSymbol (s : String) : Symbol :=
  let cs := s.toList
  let init : Symbol := { label := s }
  match cs with
  | [] => init
  | c :: _ =>
    if isLabelChar c then
      scanTail { init with label := String.mk (cs.takeWhile isLabelChar) }
        (cs.dropWhile isLabelChar)
    else scanTail init cs

/-- Symbol.__str__: label, then each tag prefixed by '-', then the
parent index prefixed by '=', then the coindex prefixed by '-', then
the parent mark prefixed by a caret. -/
def Symbol.str (s : Symbol) : String :=
  s.label
    ++ String.join (s.tags.map (fun t => "-" ++ t))
    ++ (match s.parindex with | some p => "=" ++ p | none => "")
    ++ (match s.coindex with | some c => "-" ++ c | none => "")
    ++ (match s.parent with | some p => "^" ++ p | none => "")

/-- Symbol.simplify: tags collapse to [SBJ] when SBJ was present and
keep_sbj is set, and to [] otherwise; coindex, parindex and parent are
cleared. -/
def Symbol.simplify (s : Symbol) (keep_sbj : Bool) : Symbol :=
  { label := s.label
    tags := if s.tags.contains "SBJ" && keep_sbj then ["SBJ"] else []
    coindex := none
    parindex := none
    parent := none }

/-! ## Tree model

A TExpr's head is either a Symbol, a Leaf, or None.  The parser only
ever attaches children to nodes whose head is a Symbol or None, so the
embedding uses a tagged union: a leaf-headed node (no children) or a
constituent node with an optional Symbol head and the list of children
standing for the first_child/next_sibling chain. -/

structure Leaf where
  word : String
  pos : String
deriving DecidableEq

inductive TExpr where
  | leafNode (l : Leaf)
  | constNode (head : Option Symbol) (children : List TExpr)

/-- TExpr.children: the first_child/next_sibling chain as a list. -/
def TExpr.children' : TExpr → List TExpr
  | .leafNode _ => []
  | .constNode _ cs => cs

/-- TExpr.symbol: the head if it is a Symbol (has a label attribute). -/
def TExpr.symbol : TExpr → Option Symbol
  | .constNode h _ => h
  | .leafNode _ => none

/-- TExpr.leaf: the head if it is a Leaf (has a pos attribute). -/
def TExpr.leaf : TExpr → Option Leaf
  | .leafNode l => some l
  | .constNode _ _ => none

/-! ## Parser -/

/-- Items on the parser stack: unreduced tokens (either a pushed '('
marker or a pending atom) and already-built trees. -/
inductive SItem where
  | tok (t : Token)
  | tree (tx : TExpr)

/-- The istok test of parse, for a given token id: stack items that are
trees have no token_id attribute and getattr returns None. -/
def SItem.istok (i : SItem) (id : TokenId) : Bool :=
  match i with
  | .tok t => t.token_id = id
  | .tree _ => false

/-- The value of a stack item when it is read as an atom token (Python
accesses .value directly; only items known to be STRING tokens are read
this way, so the other branches are unreachable). -/
def SItem.strValue : SItem → String
  | .tok t => t.value.getD ""
  | .tree _ => ""

/-- The while loop of the constituent reduction in parse: pop stack
items down to the matching '(' marker.  A popped tree is linked to the
front of the sibling chain (tail); a popped atom token replaces the
pending result tx with a constituent whose Symbol is built from the
atom's text and whose children are the chain collected so far (a later
tree pop extends tail but leaves the already-captured tx unchanged,
exactly as the Python assignment captures the chain head by
reference).  When the '(' marker is reached it is popped as well; a
reduce that saw no atom produces a headless constituent holding the
chain.  Popping from an empty stack is an IndexError (stack[-1] in the
loop test).  An RPAREN token is never pushed, so that case is
unreachable. -/
def reduceC : List SItem → List TExpr → Option TExpr →
    Except String (List SItem × TExpr)
  | [], _, _ => .error "IndexError: stack[-1] on empty stack"
  | .tree x :: rest, tail, tx => reduceC rest (x :: tail) tx
  | .tok t :: rest, tail, tx =>
    match t.token_id with
    | .lparen =>
      .ok (rest, match tx with
        | some x => x
        | none => .constNode none tail)
    | .string =>
      reduceC rest tail (some (.constNode (some (mkSymbol (t.value.getD ""))) tail))
    | .rparen => .error "unreachable: RPAREN is never pushed"

/-- Wrapper of the constituent reduction: when the stack has emptied
the finished tree is yielded (second component), otherwise it is pushed
back onto the stack. -/
def runReduce (stack : List SItem) : Except String (List SItem × Option TExpr) :=
  match reduceC stack [] none with
  | .error e => .error e
  | .ok (rest, tx) =>
    if rest.isEmpty then .ok ([], some tx)
    else .ok (.tree tx :: rest, none)

/-- The body of the ')' case of parse: if the two items directly below
the reduce point are two pending atoms with a '(' immediately below
them, the leaf rule pops all three and pushes a leaf node whose word is
the topmost atom and whose pos is the atom below it (this push never
yields, even on an emptied stack).  Otherwise the constituent reduction
runs.  IndexErrors of the Python list indexing (stack[-1], stack[-2],
stack[-3] under the short-circuit evaluation of the leaf test) are
propagated. -/
def handleRParen (stack : List SItem) : Except String (List SItem × Option TExpr) :=
  match stack with
  | [] => .error "IndexError: stack[-1] on empty stack"
  | [i1] =>
    if i1.istok TokenId.string then .error "IndexError: stack[-2] out of range"
    else runReduce [i1]
  | [i1, i2] =>
    if i1.istok TokenId.string && i2.istok TokenId.string then
      .error "IndexError: stack[-3] out of range"
    else runReduce [i1, i2]
  | i1 :: i2 :: i3 :: rest =>
    if i1.istok TokenId.string && i2.istok TokenId.string && i3.istok TokenId.lparen then
      .ok (.tree (.leafNode ⟨i1.strValue, i2.strValue⟩) :: rest, none)
    else runReduce (i1 :: i2 :: i3 :: rest)

/-- The token loop of parse: '(' and atom tokens are pushed; ')'
reduces.  The generator yields each tree built on an emptied stack; an
uncaught exception ends the iteration (already-yielded trees stay
yielded); reaching the end of the token stream simply ends the
generator, whatever is left on the stack. -/
def parseLoop : List SItem → List Token → List TExpr → List TExpr × Option String
  | _, [], acc => (acc.reverse, none)
  | stack, t :: ts, acc =>
    match t.token_id with
    | .lparen => parseLoop (.tok t :: stack) ts acc
    | .string => parseLoop (.tok t :: stack) ts acc
    | .rparen =>
      match handleRParen stack with
      | .error e => (acc.reverse, some e)
      | .ok (stack', y) =>
        parseLoop stack' ts
          (match y with
            | some tx => tx :: acc
            | none => acc)

/-- parse over a list of input lines: the list of yielded root trees in
order, together with the error that ended the iteration, if any. -/
def parse (lines : List String) : List TExpr × Option String :=
  parseLoop [] (lex lines) []

end Ptb

namespace Ptb

/-! ## Traversal engine -/

/-- Application of an optional visitor function: Python traverse calls
pre (resp. post) only when it is not None. -/
def applyVisit {σ : Type} (f : Option (TExpr → σ → σ)) (tx : TExpr) (st : σ) : σ :=
  match f with
  | some g => g tx st
  | none => st

mutual
/-- traverse: pre on the node, then the children in chain order, then
post on the node, threading the state value through. -/
def traverse {σ : Type} (pre post : Option (TExpr → σ → σ)) : TExpr → σ → σ
  | .leafNode l, st => applyVisit post (.leafNode l) (applyVisit pre (.leafNode l) st)
  | .constNode h cs, st =>
    applyVisit post (.constNode h cs)
      (traverseList pre post cs (applyVisit pre (.constNode h cs) st))

/-- The for loop of traverse over a sibling chain. -/
def traverseList {σ : Type} (pre post : Option (TExpr → σ → σ)) : List TExpr → σ → σ
  | [], st => st
  | c :: cs, st => traverseList pre post cs (traverse pre post c st)
end

/-! ## Structural recursion helper -/

/-- Induction principle for TExpr that provides the induction
hypothesis for every child of a constituent node. -/
theorem TExpr.indOn {P : TExpr → Prop}
    (hleaf : ∀ l, P (.leafNode l))
    (hconst : ∀ h cs, (∀ c ∈ cs, P c) → P (.constNode h cs)) :
    ∀ t, P t
  | .leafNode l => hleaf l
  | .constNode h cs => hconst h cs (fun c hc => TExpr.indOn hleaf hconst c)
termination_by t => sizeOf t
decreasing_by
  simp_wf
  have := List.sizeOf_lt_of_mem hc
  omega

/-! ## Transforms -/

mutual
/-- The post visitor of remove_empty_elements, as a recursive function
on the tree: the Bool is true for the q_ok mark and false for the
q_none (droppable) mark.  A leaf is droppable exactly when its pos is
the null-element tag.  For a constituent, the children are processed
first; the surviving (q_ok) children are relinked in order as the new
chain, but only when at least one child survives — when every child is
droppable the node keeps its (processed) chain untouched and becomes
droppable itself. -/
def reeNode : TExpr → TExpr × Bool
  | .leafNode l =>
    (.leafNode l, if l.pos = "-NONE-" then false else true)
  | .constNode h cs =>
    let rs := reeList cs
    let kept := (rs.filter (fun r => r.2)).map (fun r => r.1)
    if kept.isEmpty then (.constNode h (rs.map (fun r => r.1)), false)
    else (.constNode h kept, true)

/-- reeNode over a sibling chain, in order. -/
def reeList : List TExpr → List (TExpr × Bool)
  | [] => []
  | c :: cs => reeNode c :: reeList cs
end

/-- remove_empty_elements: the tree is mutated in place and the root is
kept whatever its mark; the embedding returns the processed root. -/
def remove_empty_elements (tx : TExpr) : TExpr :=
  (reeNode tx).1

mutual
/-- simplify_labels: the proc visitor calls Symbol.simplify on the
symbol of every node that has one (leaves and headless constituents are
untouched). -/
def simplify_labels (keep_sbj : Bool) : TExpr → TExpr
  | .leafNode l => .leafNode l
  | .constNode h cs =>
    .constNode (h.map (fun s => s.simplify keep_sbj)) (simplifyList keep_sbj cs)

/-- simplify_labels over a sibling chain. -/
def simplifyList (keep_sbj : Bool) : List TExpr → List TExpr
  | [] => []
  | c :: cs => simplify_labels keep_sbj c :: simplifyList keep_sbj cs
end

/-- mark_top: asserts that the root has exactly one child (an
AssertionError otherwise), then sets the parent mark of that child's
symbol to ROOT — an AttributeError when the child has no symbol
(symbol() is None for a leaf child or a headless constituent child). -/
def mark_top : TExpr → Except String TExpr
  | .constNode h [.constNode (some s) cs] =>
    .ok (.constNode h [.constNode (some { s with parent := some "ROOT" }) cs])
  | .constNode _ [.leafNode _] =>
    .error "AttributeError: 'NoneType' object has no attribute 'parent'"
  | .constNode _ [.constNode none _] =>
    .error "AttributeError: 'NoneType' object has no attribute 'parent'"
  | _ => .error "AssertionError: len(cs) == 1"

/-- The reserved root labels _dummy_labels. -/
def dummyLabels : List String := ["ROOT", "TOP"]

/-- add_root: when the head is None, or the head is a Symbol whose
label is reserved, the head is replaced in place by a Symbol built from
root_label.  Otherwise the code evaluates TExpr(Symbol(root_label), tx)
— a call with two positional arguments to a three-argument constructor
— which raises TypeError before any node is built. -/
def add_root (tx : TExpr) (root_label : String) : Except String TExpr :=
  match tx with
  | .constNode none cs => .ok (.constNode (some (mkSymbol root_label)) cs)
  | .constNode (some s) cs =>
    if s.label ∈ dummyLabels then .ok (.constNode (some (mkSymbol root_label)) cs)
    else .error "TypeError: TExpr.__init__ missing required positional argument: next_sibling"
  | .leafNode _ =>
    .error "TypeError: TExpr.__init__ missing required positional argument: next_sibling"

/-! ## Analyses -/

mutual
/-- The leaf payloads of a tree, in pre-order (the leaves analysis). -/
def leavesOf : TExpr → List Leaf
  | .leafNode l => [l]
  | .constNode _ cs => leavesList cs

/-- leavesOf over a sibling chain. -/
def leavesList : List TExpr → List Leaf
  | [] => []
  | c :: cs => leavesOf c ++ leavesList cs
end

mutual
/-- The symbols of a tree, in pre-order. -/
def symbolsOf : TExpr → List Symbol
  | .leafNode _ => []
  | .constNode none cs => symbolsList cs
  | .constNode (some s) cs => s :: symbolsList cs

/-- symbolsOf over a sibling chain. -/
def symbolsList : List TExpr → List Symbol
  | [] => []
  | c :: cs => symbolsOf c ++ symbolsList cs
end

/-- The state threaded by all_spans: the collected (visitation index,
(label, begin, end)) entries, the stack of (index, begin) pairs pushed
in pre-order, the current token offset, and the next visitation
index. -/
abbrev SpanState :=
  List (Nat × (String × Nat × Nat)) × List (Nat × Nat) × Nat × Nat

/-- The pre visitor of all_spans: record the node's visitation index
and current token offset on the stack. -/
def spansPre (_tx : TExpr) (st : SpanState) : SpanState :=
  let (spans, stack, b, count) := st
  (spans, stack ++ [(count, b)], b, count + 1)

/-- The post visitor of all_spans: pop this node's (index, begin); a
non-null leaf advances the offset to begin + 1; the label is the leaf's
pos, or the string of the symbol when there is one; a truthy (nonempty)
label appends (index, (label, begin, end)) to the span list.  (The pop
of the Python list is total here: the stack is never empty in post,
because every post pop matches a pre push.) -/
def spansPost (tx : TExpr) (st : SpanState) : SpanState :=
  let (spans, stack, e, count) := st
  let (num, b) := stack.getLast?.getD (0, 0)
  let stack' := stack.dropLast
  match tx with
  | .leafNode l =>
    let e' := if l.pos ≠ "-NONE-" then b + 1 else e
    if l.pos ≠ "" then (spans ++ [(num, (l.pos, b, e'))], stack', e', count)
    else (spans, stack', e', count)
  | .constNode none _ => (spans, stack', e, count)
  | .constNode (some sym) _ =>
    if sym.str ≠ "" then (spans ++ [(num, (sym.str, b, e))], stack', e, count)
    else (spans, stack', e, count)

/-- Insertion into a list sorted by visitation index (Python
list.sort() on tuples whose first components are distinct). -/
def sortInsert (x : Nat × (String × Nat × Nat)) :
    List (Nat × (String × Nat × Nat)) → List (Nat × (String × Nat × Nat))
  | [] => [x]
  | y :: ys => if x.1 ≤ y.1 then x :: y :: ys else y :: sortInsert x ys

/-- Sorting by visitation index. -/
def sortSpans : List (Nat × (String × Nat × Nat)) → List (Nat × (String × Nat × Nat))
  | [] => []
  | x :: xs => sortInsert x (sortSpans xs)

/-- all_spans: one traversal with spansPre/spansPost, then the spans
are sorted back into visitation (pre-) order and the indices are
stripped. -/
def all_spans (tx : TExpr) : List (String × Nat × Nat) :=
  let (spans, _, _, _) := traverse (some spansPre) (some spansPost) tx ([], [], 0, 0)
  (sortSpans spans).map (fun s => s.2)

end Ptb

namespace Ptb

/-! ## Facts about remove_empty_elements -/

theorem reeList_eq_map (cs : List TExpr) : reeList cs = cs.map reeNode := by
  induction cs with
  | nil => simp [reeList]
  | cons c cs ih => simp [reeList, ih]

/-- The q_ok/q_none mark of a leaf, as a predicate on the Leaf. -/
def isNonNull (l : Leaf) : Bool :=
  if l.pos = "-NONE-" then false else true

/-- The non-null leaves of a tree, in order. -/
def nonNullLeaves (t : TExpr) : List Leaf :=
  (leavesOf t).filter isNonNull

theorem kept_empty_iff (cs : List TExpr) :
    ((((cs.map reeNode).filter (fun r => r.2)).map (fun r => r.1)).isEmpty = true) ↔
      ∀ c ∈ cs, (reeNode c).2 = false := by
  rw [List.isEmpty_iff, List.map_eq_nil_iff, List.filter_eq_nil_iff]
  constructor
  · intro h c hc
    have := h (reeNode c) (List.mem_map_of_mem _ hc)
    simpa using this
  · intro h r hr
    obtain ⟨c, hc, rfl⟩ := List.mem_map.mp hr
    simp [h c hc]

/-- A node marked droppable is returned unchanged by the processing
pass (droppable constituents skip the relinking and keep their
already-processed — inductively unchanged — children). -/
theorem reeNode_fst_of_false : ∀ t, (reeNode t).2 = false → (reeNode t).1 = t := by
  intro t
  induction t using TExpr.indOn with
  | hleaf l => by_cases hp : l.pos = "-NONE-" <;> simp [reeNode, hp]
  | hconst hd cs ih =>
    intro hf
    by_cases hk : (((cs.map reeNode).filter (fun r => r.2)).map (fun r => r.1)).isEmpty
    · have hall := (kept_empty_iff cs).mp hk
      simp only [reeNode, reeList_eq_map, hk, if_true, List.map_map]
      congr 1
      calc cs.map ((fun r : TExpr × Bool => r.1) ∘ reeNode)
          = cs.map id := List.map_congr_left (fun c hc => ih c hc (hall c hc))
        _ = cs := List.map_id cs
    · exfalso
      simp only [reeNode, reeList_eq_map, hk, if_false] at hf
      exact Bool.true_eq_false.mp hf

/-- A node marked q_ok is a fixpoint of the processing pass with mark
q_ok: its relinked children are all q_ok and (inductively) fixpoints
themselves. -/
theorem reeNode_of_true : ∀ t, (reeNode t).2 = true →
    reeNode ((reeNode t).1) = ((reeNode t).1, true) := by
  intro t
  induction t using TExpr.indOn with
  | hleaf l => intro h; by_cases hp : l.pos = "-NONE-" <;> simp_all [reeNode]
  | hconst hd cs ih =>
    intro h
    by_cases hk : (((cs.map reeNode).filter (fun r => r.2)).map (fun r => r.1)).isEmpty
    · exfalso
      simp only [reeNode, reeList_eq_map, hk, if_true] at h
      exact Bool.false_eq_true.mp h
    · have hkept : ∀ k ∈ ((cs.map reeNode).filter (fun r => r.2)).map (fun r => r.1),
          reeNode k = (k, true) := by
        intro k hkm
        obtain ⟨r, hr, rfl⟩ := List.mem_map.mp hkm
        have hrf := List.mem_filter.mp hr
        obtain ⟨c, hc, rfl⟩ := List.mem_map.mp hrf.1
        exact ih c hc hrf.2
      have hfst : (reeNode (.constNode hd cs)).1 =
          .constNode hd (((cs.map reeNode).filter (fun r => r.2)).map (fun r => r.1)) := by
        simp [reeNode, reeList_eq_map, hk]
      rw [hfst]
      simp only [reeNode, reeList_eq_map]
      rw [List.map_congr_left hkept]
      have hrw : ∀ (ks : List TExpr),
          ((ks.map (fun k => (k, true))).filter (fun r : TExpr × Bool => r.2)).map
            (fun r : TExpr × Bool => r.1) = ks := by
        intro ks
        induction ks with
        | nil => simp
        | cons a ks iha => simp [iha]
      rw [hrw]
      simp [hk]

/-- A droppable subtree contains no non-null leaf (after processing or
before: its leaves are all null). -/
theorem nonNull_nil_of_false : ∀ t, (reeNode t).2 = false →
    (leavesOf t).filter isNonNull = [] := by
  intro t
  induction t using TExpr.indOn with
  | hleaf l =>
    intro hf
    by_cases hp : l.pos = "-NONE-"
    · simp [leavesOf, isNonNull, hp]
    · simp [reeNode, hp] at hf
  | hconst hd cs ih =>
    intro hf
    have hall : ∀ c ∈ cs, (reeNode c).2 = false := by
      refine (kept_empty_iff cs).mp ?_
      by_contra hk
      simp only [reeNode, reeList_eq_map, hk, if_false] at hf
      exact Bool.true_eq_false.mp hf
    have : ∀ (ds : List TExpr), (∀ c ∈ ds, (leavesOf c).filter isNonNull = []) →
        (leavesList ds).filter isNonNull = [] := by
      intro ds h
      induction ds with
      | nil => simp [leavesList]
      | cons d ds ihd =>
        simp [leavesList, List.filter_append, h d (by simp),
          ihd (fun c hc => h c (by simp [hc]))]
    simpa [leavesOf] using this cs (fun c hc => ih c hc (hall c hc))

/-- Processing never loses a non-null leaf: the ordered list of
non-null leaves is invariant under the pass. -/
theorem nonNull_preserved : ∀ t,
    (leavesOf (reeNode t).1).filter isNonNull = (leavesOf t).filter isNonNull := by
  intro t
  induction t using TExpr.indOn with
  | hleaf l => by_cases hp : l.pos = "-NONE-" <;> simp [reeNode, hp]
  | hconst hd cs ih =>
    by_cases hk : (((cs.map reeNode).filter (fun r => r.2)).map (fun r => r.1)).isEmpty
    · have hflag : (reeNode (.constNode hd cs)).2 = false := by
        simp only [reeNode, reeList_eq_map, hk, if_true]
      rw [reeNode_fst_of_false _ hflag]
    · have hfst : (reeNode (.constNode hd cs)).1 =
          .constNode hd (((cs.map reeNode).filter (fun r => r.2)).map (fun r => r.1)) := by
        simp [reeNode, reeList_eq_map, hk]
      rw [hfst]
      have main : ∀ (ds : List TExpr),
          (∀ c ∈ ds, (leavesOf (reeNode c).1).filter isNonNull = (leavesOf c).filter isNonNull) →
          (leavesList (((ds.map reeNode).filter (fun r => r.2)).map (fun r => r.1))).filter isNonNull
            = (leavesList ds).filter isNonNull := by
        intro ds h
        induction ds with
        | nil => simp [leavesList]
        | cons d ds ihd =>
          cases hd2 : (reeNode d).2
          · have hnil : (leavesOf d).filter isNonNull = [] := nonNull_nil_of_false d hd2
            simp [hd2, leavesList, List.filter_append, hnil,
              ihd (fun c hc => h c (by simp [hc]))]
          · simp [hd2, leavesList, List.filter_append, h d (by simp),
              ihd (fun c hc => h c (by simp [hc]))]
      simpa [leavesOf] using main cs ih

/-! ## Facts about the label grammar -/

/-- The property of a run usable as base label or tag: nonempty and all
characters outside [0-9=-]. -/
def goodTag (t : List Char) : Prop :=
  t ≠ [] ∧ ∀ c ∈ t, isLabelChar c = true

/-- The property of a run usable as parent index or coindex: nonempty
and all digits. -/
def goodDigits (d : List Char) : Prop :=
  d ≠ [] ∧ ∀ c ∈ d, c.isDigit = true

/-- The first character of the list, if any, falsifies p. -/
def headNot (p : Char → Bool) (l : List Char) : Prop :=
  ∀ c cs, l = c :: cs → p c = false

/-- The '='-prefixed segment contributed by an optional parent index. -/
def parSeg : Option (List Char) → List Char
  | some p => '=' :: p
  | none => []

/-- The '-'-prefixed segment contributed by an optional coindex. -/
def coiSeg : Option (List Char) → List Char
  | some d => '-' :: d
  | none => []

/-- A label string in serialization order: base label, '-'-prefixed
tags, an optional '='-prefixed parent index, an optional '-'-prefixed
coindex. -/
def canonLabel (base : List Char) (tags : List (List Char))
    (par coi : Option (List Char)) : List Char :=
  base ++ (tags.map (fun t => '-' :: t)).flatten ++ parSeg par ++ coiSeg coi

theorem isLabelChar_dash : isLabelChar '-' = false := rfl

theorem isLabelChar_eq : isLabelChar '=' = false := rfl

theorem isLabelChar_of_digit {c : Char} (h : c.isDigit = true) : isLabelChar c = false := by
  simp [isLabelChar, h]

theorem headNot_tagsRest (ts : List (List Char)) (rest : List Char)
    (hr : headNot isLabelChar rest) :
    headNot isLabelChar ((ts.map (fun t => '-' :: t)).flatten ++ rest) := by
  cases ts with
  | nil => simpa using hr
  | cons t ts =>
    intro c cs h
    simp only [List.map_cons, List.flatten_cons, List.cons_append, List.append_assoc] at h
    obtain ⟨rfl, -⟩ := List.cons.injEq .. ▸ h
    exact isLabelChar_dash

theorem headNot_parCoi (par coi : Option (List Char)) :
    headNot isLabelChar (parSeg par ++ coiSeg coi) := by
  intro c cs h
  cases par with
  | some p =>
    simp only [parSeg, List.cons_append] at h
    obtain ⟨rfl, -⟩ := List.cons.injEq .. ▸ h
    exact isLabelChar_eq
  | none =>
    cases coi with
    | some d =>
      simp only [parSeg, coiSeg, List.nil_append] at h
      obtain ⟨rfl, -⟩ := List.cons.injEq .. ▸ h
      exact isLabelChar_dash
    | none => simp [parSeg, coiSeg] at h

theorem headNot_coiSeg (coi : Option (List Char)) :
    headNot Char.isDigit (coiSeg coi) := by
  intro c cs h
  cases coi with
  | some d =>
    simp only [coiSeg] at h
    obtain ⟨rfl, -⟩ := List.cons.injEq .. ▸ h
    rfl
  | none => simp [coiSeg] at h

/-- Consuming one '-'-prefixed tag run: the tag alternative matches and
appends the run to the accumulated tags. -/
theorem scanTail_tag (acc : Symbol) (t rest : List Char)
    (ht : goodTag t) (hr : headNot isLabelChar rest) :
    scanTail acc (('-' :: t) ++ rest) =
      scanTail { acc with tags := acc.tags ++ [String.mk t] } rest := by
  obtain ⟨c, t', rfl⟩ : ∃ c t', t = c :: t' := by
    cases t with
    | nil => exact absurd rfl ht.1
    | cons c t' => exact ⟨c, t', rfl⟩
  have hall : ∀ x ∈ c :: t', isLabelChar x = true := ht.2
  have htake := takeWhile_append_all isLabelChar (c :: t') rest hall hr
  have hdrop := dropWhile_append_all isLabelChar (c :: t') rest hall hr
  have hc : isLabelChar c = true := hall c (by simp)
  simp only [List.cons_append, scanTail, hc, if_true]
  rw [show c :: (t' ++ rest) = (c :: t') ++ rest from rfl, htake, hdrop]

/-- Consuming the '-'-prefixed tag runs in order. -/
theorem scanTail_tags (tags : List (List Char)) (rest : List Char) (acc : Symbol)
    (ht : ∀ t ∈ tags, goodTag t) (hr : headNot isLabelChar rest) :
    scanTail acc ((tags.map (fun t => '-' :: t)).flatten ++ rest) =
      scanTail { acc with tags := acc.tags ++ tags.map (fun t => String.mk t) } rest := by
  induction tags generalizing acc with
  | nil => simp
  | cons t ts ih =>
    simp only [List.map_cons, List.flatten_cons, List.append_assoc]
    rw [scanTail_tag acc t _ (ht t (by simp)) (headNot_tagsRest ts rest hr)]
    rw [ih _ (fun u hu => ht u (by simp [hu]))]
    simp

/-- Consuming the '='-prefixed parent-index run. -/
theorem scanTail_par (acc : Symbol) (p rest : List Char)
    (hp : goodDigits p) (hr : headNot Char.isDigit rest) :
    scanTail acc (('=' :: p) ++ rest) =
      scanTail { acc with parindex := some (String.mk p) } rest := by
  obtain ⟨c, p', rfl⟩ : ∃ c p', p = c :: p' := by
    cases p with
    | nil => exact absurd rfl hp.1
    | cons c p' => exact ⟨c, p', rfl⟩
  have hall : ∀ x ∈ c :: p', x.isDigit = true := hp.2
  have htake := takeWhile_append_all Char.isDigit (c :: p') rest hall hr
  have hdrop := dropWhile_append_all Char.isDigit (c :: p') rest hall hr
  have hc : c.isDigit = true := hall c (by simp)
  simp only [List.cons_append, scanTail, hc, if_true]
  rw [show c :: (p' ++ rest) = (c :: p') ++ rest from rfl, htake, hdrop]

/-- Consuming the final '-'-prefixed coindex run (the tag alternative
fails on the digit, the coindex alternative matches). -/
theorem scanTail_coi (acc : Symbol) (d rest : List Char)
    (hd : goodDigits d) (hr : headNot Char.isDigit rest) :
    scanTail acc (('-' :: d) ++ rest) =
      scanTail { acc with coindex := some (String.mk d) } rest := by
  obtain ⟨c, d', rfl⟩ : ∃ c d', d = c :: d' := by
    cases d with
    | nil => exact absurd rfl hd.1
    | cons c d' => exact ⟨c, d', rfl⟩
  have hall : ∀ x ∈ c :: d', x.isDigit = true := hd.2
  have htake := takeWhile_append_all Char.isDigit (c :: d') rest hall hr
  have hdrop := dropWhile_append_all Char.isDigit (c :: d') rest hall hr
  have hc : c.isDigit = true := hall c (by simp)
  simp only [List.cons_append, scanTail, isLabelChar_of_digit hc, if_false, hc, if_true]
  rw [show c :: (d' ++ rest) = (c :: d') ++ rest from rfl, htake, hdrop]
  rw [if_neg Bool.false_ne_true]

theorem scanTail_nil (acc : Symbol) : scanTail acc [] = acc := by
  simp [scanTail]

/-- Consuming the optional parent-index segment. -/
theorem scanTail_parSeg (acc : Symbol) (par : Option (List Char)) (rest : List Char)
    (hp : ∀ p, par = some p → goodDigits p) (hr : headNot Char.isDigit rest) :
    scanTail acc (parSeg par ++ rest) =
      scanTail { acc with parindex :=
        match par with
        | some p => some (String.mk p)
        | none => acc.parindex } rest := by
  cases par with
  | some p => exact scanTail_par acc p rest (hp p rfl) hr
  | none => simp [parSeg]

/-- Consuming the optional coindex segment at the end of the string. -/
theorem scanTail_coiSeg (acc : Symbol) (coi : Option (List Char))
    (hd : ∀ d, coi = some d → goodDigits d) :
    scanTail acc (coiSeg coi) =
      { acc with coindex :=
        match coi with
        | some d => some (String.mk d)
        | none => acc.coindex } := by
  cases coi with
  | some d =>
    have h := scanTail_coi acc d [] (hd d rfl) (by intro c cs h; simp at h)
    simp only [List.append_nil] at h
    simpa [coiSeg, scanTail_nil] using h
  | none => simp [coiSeg, scanTail_nil]

/-- mkSymbol on a nonempty string whose first character is in the label
class: the anchored label alternative matches its maximal run. -/
theorem mkSymbol_cons_label (b : Char) (rest : List Char) (hb : isLabelChar b = true) :
    mkSymbol (String.mk (b :: rest)) =
      scanTail { label := String.mk ((b :: rest).takeWhile isLabelChar) }
        ((b :: rest).dropWhile isLabelChar) := by
  simp [mkSymbol, String.toList, hb]

/-- The decomposition computed by Symbol.__init__ on a label string in
serialization order (base, tags, parent index, coindex). -/
theorem mkSymbol_canon (base : List Char) (tags : List (List Char))
    (par coi : Option (List Char))
    (hb : goodTag base) (ht : ∀ t ∈ tags, goodTag t)
    (hp : ∀ p, par = some p → goodDigits p)
    (hd : ∀ d, coi = some d → goodDigits d) :
    mkSymbol (String.mk (canonLabel base tags par coi)) =
      { label := String.mk base
        tags := tags.map (fun t => String.mk t)
        coindex := coi.map (fun d => String.mk d)
        parindex := par.map (fun p => String.mk p)
        parent := none } := by
  obtain ⟨b, base', rfl⟩ : ∃ b base', base = b :: base' := by
    cases base with
    | nil => exact absurd rfl hb.1
    | cons b base' => exact ⟨b, base', rfl⟩
  have hbb : isLabelChar b = true := hb.2 b (by simp)
  have hrest1 : headNot isLabelChar
      ((tags.map (fun t => '-' :: t)).flatten ++ (parSeg par ++ coiSeg coi)) :=
    headNot_tagsRest _ _ (headNot_parCoi par coi)
  have hcanon : canonLabel (b :: base') tags par coi =
      (b :: base') ++ ((tags.map (fun t => '-' :: t)).flatten ++ (parSeg par ++ coiSeg coi)) := by
    simp [canonLabel, List.append_assoc]
  rw [hcanon, List.cons_append, mkSymbol_cons_label b _ hbb, ← List.cons_append]
  rw [takeWhile_append_all _ _ _ hb.2 hrest1, dropWhile_append_all _ _ _ hb.2 hrest1]
  rw [scanTail_tags tags _ _ ht (headNot_parCoi par coi)]
  rw [scanTail_parSeg _ par _ hp (headNot_coiSeg coi)]
  rw [scanTail_coiSeg _ coi hd]
  cases par <;> cases coi <;> simp

theorem foldl_append_data (acc : String) (l : List String) :
    (l.foldl (fun r s => r ++ s) acc).data = acc.data ++ (l.map String.data).flatten := by
  induction l generalizing acc with
  | nil => simp
  | cons a l ih => simp [ih, String.data_append, List.append_assoc]

theorem join_data (l : List String) :
    (String.join l).data = (l.map String.data).flatten := by
  simp [String.join, foldl_append_data]

theorem data_dash : ("-" : String).data = ['-'] := rfl

/-- Symbol.__str__ of a decomposition in serialization order
reassembles exactly the canonical string. -/
theorem str_canon (base : List Char) (tags : List (List Char))
    (par coi : Option (List Char)) :
    Symbol.str
      { label := String.mk base
        tags := tags.map (fun t => String.mk t)
        coindex := coi.map (fun d => String.mk d)
        parindex := par.map (fun p => String.mk p)
        parent := none } = String.mk (canonLabel base tags par coi) := by
  have map_dash_data : List.map (String.data ∘ (fun t => "-" ++ t) ∘
      fun t => (⟨t⟩ : String)) tags = List.map (fun t => '-' :: t) tags :=
    List.map_congr_left (fun t _ => by simp [Function.comp, String.data_append, data_dash])
  apply String.ext
  cases par <;> cases coi <;>
    simp [Symbol.str, canonLabel, parSeg, coiSeg, join_data, String.data_append,
      List.map_map, data_dash, List.append_assoc] <;>
    exact congrArg List.flatten map_dash_data

/-! ## Facts about the lexer -/

theorem lexLine_lineno (cs : List Char) : ∀ t ∈ lexLine cs, t.lineno = none := by
  induction cs using lexLine.induct <;> simp_all [lexLine]

theorem lex_lineno (lines : List String) : ∀ t ∈ lex lines, t.lineno = none := by
  intro t ht
  simp only [lex, List.mem_flatten, List.mem_map] at ht
  obtain ⟨l, ⟨line, hline, rfl⟩, htl⟩ := ht
  exact lexLine_lineno _ t htl

/-! ## Facts about simplify_labels -/

theorem symbolsOf_simplify (keep_sbj : Bool) : ∀ t,
    symbolsOf (simplify_labels keep_sbj t) =
      (symbolsOf t).map (fun s => s.simplify keep_sbj) := by
  intro t
  induction t using TExpr.indOn with
  | hleaf l => simp [simplify_labels, symbolsOf]
  | hconst hd cs ih =>
    have hlist : ∀ ds : List TExpr,
        (∀ c ∈ ds, symbolsOf (simplify_labels keep_sbj c) =
          (symbolsOf c).map (fun s => s.simplify keep_sbj)) →
        symbolsList (simplifyList keep_sbj ds) =
          (symbolsList ds).map (fun s => s.simplify keep_sbj) := by
      intro ds h
      induction ds with
      | nil => simp [simplifyList, symbolsList]
      | cons d ds ihd =>
        simp [simplifyList, symbolsList, h d (by simp),
          ihd (fun c hc => h c (by simp [hc]))]
    cases hd with
    | none => simpa [simplify_labels, symbolsOf] using hlist cs ih
    | some s => simpa [simplify_labels, symbolsOf] using hlist cs ih

/-! ## The claims -/

/-- C1: the claim says add_root wraps a tree whose head symbol is
present and not reserved in a new single-child constituent, and
replaces the head label in place otherwise.  The in-place branch works
as described, but the wrapping branch calls TExpr(Symbol(root_label),
tx), passing two positional arguments to the three-argument
TExpr.__init__, so it raises TypeError instead of returning a wrapper
node: evaluated here on the tree parsed from (S (NP dog)), together
with the working in-place branches for a reserved head label (TOP) and
for a missing head. -/
theorem c1_add_root_wrap_raises :
    add_root (.constNode (some (mkSymbol "S")) [.leafNode ⟨"dog", "NP"⟩]) "ROOT" =
      .error "TypeError: TExpr.__init__ missing required positional argument: next_sibling" ∧
    add_root (.constNode (some (mkSymbol "TOP")) [.leafNode ⟨"dog", "NP"⟩]) "ROOT" =
      .ok (.constNode (some (mkSymbol "ROOT")) [.leafNode ⟨"dog", "NP"⟩]) ∧
    add_root (.constNode none [.leafNode ⟨"dog", "NP"⟩]) "ROOT" =
      .ok (.constNode (some (mkSymbol "ROOT")) [.leafNode ⟨"dog", "NP"⟩]) := by
  refine ⟨?_, ?_, ?_⟩ <;>
    simp [add_root, dummyLabels, mkSymbol, scanTail, isLabelChar]

/-- C2 counterexample: the round-trip is not loss-less on the claim's
own example WHNP-1=2, where a coindex precedes a parent index — the
Symbol is decomposed correctly but re-serialized with the parent index
first, giving WHNP=2-1. -/
theorem c2_cex_whnp :
    (mkSymbol "WHNP-1=2").str ≠ "WHNP-1=2" ∧
    (mkSymbol "WHNP-1=2").str = "WHNP=2-1" := by
  have h : (mkSymbol "WHNP-1=2").str = "WHNP=2-1" := by
    simp [mkSymbol, scanTail, isLabelChar, Symbol.str, String.join]
  exact ⟨by rw [h]; decide, h⟩

/-- C2 (amended): building a Symbol from a label string and
re-serializing it reproduces the string exactly for every input in
serialization order — base label, then '-'-prefixed tags, then an
optional '='-prefixed parent index, then an optional '-'-prefixed
coindex; for inputs where a coindex precedes a parent index (such as
WHNP-1=2), re-serialization reorders the two. -/
theorem c2_roundtrip_serialization_order (base : List Char) (tags : List (List Char))
    (par coi : Option (List Char))
    (hb : goodTag base) (ht : ∀ t ∈ tags, goodTag t)
    (hp : ∀ p, par = some p → goodDigits p)
    (hd : ∀ d, coi = some d → goodDigits d) :
    (mkSymbol (String.mk (canonLabel base tags par coi))).str =
      String.mk (canonLabel base tags par coi) := by
  rw [mkSymbol_canon base tags par coi hb ht hp hd, str_canon]

/-- C2 witness: the round-trip theorem applied to NP-SBJ=2-1 (base NP,
tag SBJ, parent index 2, coindex 1, in serialization order). -/
theorem c2_roundtrip_witness :
    (mkSymbol "NP-SBJ=2-1").str = "NP-SBJ=2-1" := by
  have h := c2_roundtrip_serialization_order ['N', 'P'] [['S', 'B', 'J']]
    (some ['2']) (some ['1'])
    (by refine ⟨by simp, ?_⟩; decide)
    (by intro t htm; simp only [List.mem_singleton] at htm; subst htm
        refine ⟨by simp, ?_⟩; decide)
    (by intro p hpm; simp only [Option.some.injEq] at hpm; subst hpm
        refine ⟨by simp, ?_⟩; decide)
    (by intro d hdm; simp only [Option.some.injEq] at hdm; subst hdm
        refine ⟨by simp, ?_⟩; decide)
  have heq : String.mk (canonLabel ['N', 'P'] [['S', 'B', 'J']]
      (some ['2']) (some ['1'])) = "NP-SBJ=2-1" := by decide
  rw [heq] at h
  exact h

/-- C3 counterexample: on the claim's own malformed input
(S (NP (DT the)) — missing final ')' — parse reaches end-of-input with
a non-empty stack and terminates silently: no tree is yielded AND no
error is surfaced, contradicting the claimed fatal parse error. -/
theorem c3_cex_silent_eof :
    parse ["(S (NP (DT the))"] = ([], none) := by
  simp [parse, lex, lexLine, isAtomChar, parseLoop, handleRParen, runReduce, reduceC,
    SItem.istok, SItem.strValue, mkSymbol, scanTail, isLabelChar]

/-- C3 (amended): a token stream that reaches end-of-input while a
parenthesized group is still open (non-empty parser stack) makes parse
terminate silently: no error is surfaced, no tree is yielded for the
open group, and the trees already yielded before end-of-input remain
valid (they are exactly what the iteration returns). -/
theorem c3_eof_silent (stack : List SItem) (acc : List TExpr) (hne : stack ≠ []) :
    parseLoop stack [] acc = (acc.reverse, none) := by
  simp [parseLoop]

/-- C3 witness: the end-of-input case applied to a concrete open stack
with one already-yielded tree. -/
theorem c3_eof_silent_witness :
    parseLoop [SItem.tok ⟨TokenId.lparen, none, none⟩] [] [.constNode none []] =
      ([.constNode none []], none) := by
  have h := c3_eof_silent [SItem.tok ⟨TokenId.lparen, none, none⟩]
    [.constNode none []] (by simp)
  simpa using h

/-- C4 counterexample: the lexer yields three tokens for the single
line (a) and every one of them has lineno None — no token carries the
source line number of the line it was scanned from. -/
theorem c4_cex_no_lineno :
    (lex ["(a)"]).length = 3 ∧ ∀ t ∈ lex ["(a)"], t.lineno = none := by
  constructor
  · simp [lex, lexLine, isAtomChar]
  · intro t ht
    simp [lex, lexLine, isAtomChar] at ht
    rcases ht with rfl | rfl | rfl <;> rfl

/-- C4 (amended): no token produced by the lexer carries a line
number: lex enumerates the input lines but never passes the line index
to a Token, so every token's lineno is None and no position from a
triggering token is available to error reporting. -/
theorem c4_lexer_lineno_none (lines : List String) :
    ∀ t ∈ lex lines, t.lineno = none :=
  lex_lineno lines

/-- C4 witness: the amended statement applied to the token of the
line ( . -/
theorem c4_lexer_lineno_none_witness :
    (Token.mk TokenId.lparen none none).lineno = none :=
  c4_lexer_lineno_none ["("] ⟨TokenId.lparen, none, none⟩ (by simp [lex, lexLine])

/-- C5: simplify_labels rewrites every Symbol of the tree with
Symbol.simplify, and Symbol.simplify clears coindex and parindex and
collapses the tags to [SBJ] exactly when keep_sbj is set and SBJ was
among the tags, and to [] otherwise. -/
theorem c5_simplify_labels (keep_sbj : Bool) (t : TExpr) :
    symbolsOf (simplify_labels keep_sbj t) =
      (symbolsOf t).map (fun s => s.simplify keep_sbj) ∧
    ∀ s : Symbol,
      (s.simplify keep_sbj).coindex = none ∧
      (s.simplify keep_sbj).parindex = none ∧
      (keep_sbj = true ∧ "SBJ" ∈ s.tags → (s.simplify keep_sbj).tags = ["SBJ"]) ∧
      (¬(keep_sbj = true ∧ "SBJ" ∈ s.tags) → (s.simplify keep_sbj).tags = []) := by
  refine ⟨symbolsOf_simplify keep_sbj t, ?_⟩
  intro s
  refine ⟨rfl, rfl, ?_, ?_⟩
  · rintro ⟨hk, hm⟩
    simp [Symbol.simplify, hk, hm]
  · intro hn
    cases hk : keep_sbj with
    | false => simp [Symbol.simplify, hk]
    | true =>
      have hm : "SBJ" ∉ s.tags := fun hm => hn ⟨hk, hm⟩
      simp [Symbol.simplify, hm]

/-- C5 witness: the Symbol of NP-SBJ-2 (tags [SBJ], coindex 2) keeps
exactly [SBJ] under keep_sbj and loses all tags otherwise, and its
coindex is cleared. -/
theorem c5_simplify_labels_witness :
    ((mkSymbol "NP-SBJ-2").simplify true).tags = ["SBJ"] ∧
    ((mkSymbol "NP-SBJ-2").simplify false).tags = [] ∧
    ((mkSymbol "NP-SBJ-2").simplify true).coindex = none := by
  have htags : (mkSymbol "NP-SBJ-2").tags = ["SBJ"] := by
    simp [mkSymbol, scanTail, isLabelChar]
  refine ⟨?_, ?_, ?_⟩
  · exact ((c5_simplify_labels true (.leafNode ⟨"a", "DT"⟩)).2 (mkSymbol "NP-SBJ-2")).2.2.1
      ⟨rfl, by simp [htags]⟩
  · exact ((c5_simplify_labels false (.leafNode ⟨"a", "DT"⟩)).2 (mkSymbol "NP-SBJ-2")).2.2.2
      (by simp)
  · exact ((c5_simplify_labels true (.leafNode ⟨"a", "DT"⟩)).2 (mkSymbol "NP-SBJ-2")).1

/-- C6: remove_empty_elements is a fixpoint — applying it to its own
output changes nothing — and it never removes a leaf whose pos is not
-NONE- (the ordered list of non-null leaves is preserved). -/
theorem c6_remove_empty_fixpoint (t : TExpr) :
    remove_empty_elements (remove_empty_elements t) = remove_empty_elements t ∧
    nonNullLeaves (remove_empty_elements t) = nonNullLeaves t := by
  constructor
  · unfold remove_empty_elements
    cases hb : (reeNode t).2
    · rw [reeNode_fst_of_false t hb]
      exact reeNode_fst_of_false t hb
    · rw [reeNode_of_true t hb]
  · exact nonNull_preserved t

end Ptb
namespace Ptb

/-- The tree of the scenario input (S (NP (DT the) (NN dog)) (VP (VBZ runs))). -/
def exampleTreeS : TExpr :=
  .constNode (some (mkSymbol "S"))
    [.constNode (some (mkSymbol "NP")) [.leafNode ⟨"the", "DT"⟩, .leafNode ⟨"dog", "NN"⟩],
     .constNode (some (mkSymbol "VP")) [.leafNode ⟨"runs", "VBZ"⟩]]

/-- C7: all_spans assigns begins in pre-order and ends in post-order
(a non-null leaf's end is its begin + 1, a constituent inherits its
last child's end) and returns the (label, begin, end) triples sorted
back into pre-order: on the scenario input the full output is computed
and contains (S,0,3), (NP,0,2) and (VP,2,3). -/
theorem c7_all_spans_example :
    parse ["(S (NP (DT the) (NN dog)) (VP (VBZ runs)))"] = ([exampleTreeS], none) ∧
    all_spans exampleTreeS =
      [("S", 0, 3), ("NP", 0, 2), ("DT", 0, 1), ("NN", 1, 2), ("VP", 2, 3), ("VBZ", 2, 3)] ∧
    ("S", 0, 3) ∈ all_spans exampleTreeS ∧
    ("NP", 0, 2) ∈ all_spans exampleTreeS ∧
    ("VP", 2, 3) ∈ all_spans exampleTreeS := by
  have hspans : all_spans exampleTreeS =
      [("S", 0, 3), ("NP", 0, 2), ("DT", 0, 1), ("NN", 1, 2), ("VP", 2, 3), ("VBZ", 2, 3)] := by
    simp [exampleTreeS, all_spans, traverse, traverseList, applyVisit, spansPre, spansPost,
      sortSpans, sortInsert, mkSymbol, scanTail, isLabelChar, Symbol.str, String.join]
  refine ⟨?_, hspans, ?_, ?_, ?_⟩
  · simp [exampleTreeS, parse, lex, lexLine, isAtomChar, parseLoop, handleRParen,
      runReduce, reduceC, SItem.istok, SItem.strValue, mkSymbol, scanTail, isLabelChar]
  · rw [hspans]; simp
  · rw [hspans]; simp
  · rw [hspans]; simp

/-- C8: whenever the parser reduces at ')' with two pending atom
tokens directly below the reduce point and a '(' immediately below
them, the reduction pushes a Leaf node whose pos is the first (deeper)
atom and whose word is the second (topmost) atom, whatever else is on
the stack; as a consequence the bare two-atom group (NP dog) inside
(S (NP dog)) is parsed as the leaf dog/NP, not as a constituent. -/
theorem c8_leaf_rule (w p : String) (v3 : Option String)
    (ln1 ln2 ln3 : Option Nat) (rest : List SItem) :
    handleRParen (.tok ⟨TokenId.string, some w, ln1⟩ :: .tok ⟨TokenId.string, some p, ln2⟩ ::
        .tok ⟨TokenId.lparen, v3, ln3⟩ :: rest) =
      .ok (.tree (.leafNode ⟨w, p⟩) :: rest, none) ∧
    parse ["(S (NP dog))"] =
      ([.constNode (some (mkSymbol "S")) [.leafNode ⟨"dog", "NP"⟩]], none) := by
  constructor
  · simp [handleRParen, SItem.istok, SItem.strValue]
  · simp [parse, lex, lexLine, isAtomChar, parseLoop, handleRParen, runReduce, reduceC,
      SItem.istok, SItem.strValue, mkSymbol, scanTail, isLabelChar]

/-- C9 counterexample: mark_top fails fatally on a root with exactly
one child, when that child is a leaf (its symbol() is None and the
attribute access raises), so failing is not equivalent to the root not
having exactly one child. -/
theorem c9_mark_top_cex :
    (TExpr.children' (.constNode (some (mkSymbol "S")) [.leafNode ⟨"the", "DT"⟩])).length = 1 ∧
    mark_top (.constNode (some (mkSymbol "S")) [.leafNode ⟨"the", "DT"⟩]) =
      .error "AttributeError: 'NoneType' object has no attribute 'parent'" :=
  ⟨rfl, rfl⟩

/-- C9 (amended): mark_top succeeds exactly when the root has exactly
one child and that child's head is a Symbol; it fails fatally
otherwise (AssertionError when the child count is not one,
AttributeError when the single child has no Symbol).  On success the
single child's parent mark becomes the literal ROOT and the tree is
otherwise unchanged. -/
theorem c9_mark_top (t : TExpr) :
    ((∃ u, mark_top t = .ok u) ↔
      ∃ h s cs, t = .constNode h [.constNode (some s) cs]) ∧
    (∀ h s cs, t = .constNode h [.constNode (some s) cs] →
      mark_top t = .ok (.constNode h
        [.constNode (some { s with parent := some "ROOT" }) cs])) := by
  constructor
  · constructor
    · intro hex
      obtain ⟨u, hu⟩ := hex
      cases t with
      | leafNode l => simp [mark_top] at hu
      | constNode h cs =>
        match cs with
        | [] => simp [mark_top] at hu
        | [TExpr.leafNode l] => simp [mark_top] at hu
        | [TExpr.constNode none cs2] => simp [mark_top] at hu
        | [TExpr.constNode (some s) cs2] => exact ⟨h, s, cs2, rfl⟩
        | c1 :: c2 :: rest => simp [mark_top] at hu
    · rintro ⟨h, s, cs, rfl⟩
      exact ⟨_, rfl⟩
  · rintro h s cs rfl
    rfl

/-- C9 witness: the amended statement applied to
(ROOT (S (DT the))). -/
theorem c9_mark_top_witness :
    mark_top (.constNode (some (mkSymbol "ROOT"))
        [.constNode (some (mkSymbol "S")) [.leafNode ⟨"the", "DT"⟩]]) =
      .ok (.constNode (some (mkSymbol "ROOT"))
        [.constNode (some { mkSymbol "S" with parent := some "ROOT" })
          [.leafNode ⟨"the", "DT"⟩]]) :=
  (c9_mark_top _).2 _ _ _ rfl

/-- C10: a constituent all of whose children come back marked
droppable skips the relinking entirely — remove_empty_elements keeps
its first_child/next_sibling chain (the children list) exactly as it
was, with the dropped children still attached; since the droppable
children are themselves returned unchanged, the whole node is
returned unchanged, observably at the never-dropped root. -/
theorem c10_all_children_dropped_keep_chain (h : Option Symbol) (cs : List TExpr)
    (hall : ∀ c ∈ cs, (reeNode c).2 = false) :
    remove_empty_elements (.constNode h cs) = .constNode h cs := by
  unfold remove_empty_elements
  have hflag : (reeNode (.constNode h cs)).2 = false := by
    have hk : (((cs.map reeNode).filter (fun r => r.2)).map (fun r => r.1)).isEmpty = true :=
      (kept_empty_iff cs).mpr hall
    simp only [reeNode, reeList_eq_map, hk, if_true]
  exact reeNode_fst_of_false _ hflag

/-- C10 witness: the all-children-droppable case applied to a root
whose only leaf is a null element. -/
theorem c10_witness :
    (reeNode (.leafNode ⟨"*", "-NONE-"⟩)).2 = false ∧
    remove_empty_elements (.constNode (some (mkSymbol "S")) [.leafNode ⟨"*", "-NONE-"⟩]) =
      .constNode (some (mkSymbol "S")) [.leafNode ⟨"*", "-NONE-"⟩] := by
  refine ⟨rfl, ?_⟩
  exact c10_all_children_dropped_keep_chain (some (mkSymbol "S")) [.leafNode ⟨"*", "-NONE-"⟩]
    (by intro c hc; simp only [List.mem_singleton] at hc; subst hc; rfl)

end Ptb
